import Mathlib

/-!
Shallow embedding of the festivus fee-estimation library (`src/lib.rs`).

The library selects coins (largest-first, stable sort) to cover a target
amount, predicts the virtual size of the resulting funding transaction from
per-input weight predictions, and projects fees for five market tiers.

Modelling conventions:
* Rust `u64` values are `Nat`; `i64` values are `Int`.  Two's-complement
  wrapping, which matters on the `amount as i64` cast and the `u64` fee
  multiplication, is made explicit with `wrapI64` / `mulU64`.  `usize` byte
  counts inside the weight predictor stay plain `Nat`: overflowing them would
  require on the order of `2^60` inputs, which no reachable call can supply.
* The network fetch in `calculate_fee` is represented by an explicit
  `oracle` argument (what the HTTP call would produce) together with a
  returned `Bool` recording whether the fetch was consulted.
* The freshly generated random taproot key is represented by the
  `placeholderKey` argument (the 32 x-only output-key bytes); only the byte
  length of the derived script can influence the result.
-/

/-- Two's-complement wrap of an integer into the `i64` range
`[-2^63, 2^63)`; models Rust `as i64` casts and wrapping `i64` arithmetic. -/
def wrapI64 (x : Int) : Int :=
  (x + 9223372036854775808) % 18446744073709551616 - 9223372036854775808

/-- Wrapping `u64` multiplication, as performed by `virtual_bytes * fee` in
release builds. -/
def mulU64 (a b : Nat) : Nat := a * b % 18446744073709551616

/-- `tonic_lnd::lnrpc::OutPoint` (the fields the library touches). -/
structure OutPointM where
  txid_bytes : List Nat
  txid_str : String
  output_index : Nat
deriving DecidableEq

/-- `tonic_lnd::lnrpc::Utxo`, restricted to the fields `lib.rs` reads or
writes: `amount_sat : i64`, `address_type : i32` (raw protobuf enum code),
and the outpoint. -/
structure Utxo where
  amount_sat : Int
  address_type : Int
  outpoint : Option OutPointM
deriving DecidableEq

/-- `Utxo::default()`: every field zero / empty. -/
def Utxo.mkDefault : Utxo := { amount_sat := 0, address_type := 0, outpoint := none }

/-- The two error variants of `FestivusError`. -/
inductive FestivusError where
  | NotEnoughBitcoin
  | ReqwestError
deriving DecidableEq

/-- The five-tier fee-rate record deserialized from the oracle (or built
uniformly from a user-supplied rate); all fields are `u64`. -/
structure RecommendedFess where
  fastest_fee : Nat
  half_hour_fee : Nat
  hour_fee : Nat
  economy_fee : Nat
  minimum_fee : Nat
deriving DecidableEq

/-- The result record: per tier a pair `(projected fee sats, rate per vbyte)`,
both `u64`. -/
structure ProjectedFees where
  fastest_fee : Nat × Nat
  half_hour_fee : Nat × Nat
  hour_fee : Nat × Nat
  economy_fee : Nat × Nat
  minimum_fee : Nat × Nat
deriving DecidableEq

/-- Size in bytes of the Bitcoin compact-size encoding of `n`
(`VarInt::size` in the bitcoin crate). -/
def compactSizeLen (n : Nat) : Nat :=
  if n < 253 then 1 else if n < 65536 then 3 else if n < 4294967296 then 5 else 9

/-- `bitcoin::transaction::InputWeightPrediction`: the predicted size of an
input's `script_sig` (with its length varint) and of its witness data (with
the element-count varint). -/
structure InputWeightPrediction where
  script_size : Nat
  witness_size : Nat
deriving DecidableEq

/-- Modelled from the spec: `InputWeightPrediction::from_slice` of the
external bitcoin crate — each witness element contributes its length plus the
length's varint, plus one varint for the element count when any element is
present. -/
def InputWeightPrediction.fromSlice (inputScriptLen : Nat)
    (witnessElementLengths : List Nat) : InputWeightPrediction :=
  { script_size := inputScriptLen + compactSizeLen inputScriptLen
    witness_size :=
      if witnessElementLengths.isEmpty then 0
      else (witnessElementLengths.map (fun l => l + compactSizeLen l)).sum
        + compactSizeLen witnessElementLengths.length }

/-- Taproot key-path spend with the default sighash: a single 64-byte
Schnorr signature witness element. -/
def P2TR_KEY_DEFAULT_SIGHASH : InputWeightPrediction :=
  InputWeightPrediction.fromSlice 0 [64]

/-- Maximum-size P2WPKH spend: a 72-byte DER signature plus a 33-byte
compressed public key. -/
def P2WPKH_MAX : InputWeightPrediction :=
  InputWeightPrediction.fromSlice 0 [72, 33]

/-- Weight contributed by the prediction itself: non-witness script bytes
count four weight units each, witness bytes one. -/
def InputWeightPrediction.weightWu (p : InputWeightPrediction) : Nat :=
  p.script_size * 4 + p.witness_size

/-- Modelled from the spec: `bitcoin::transaction::predict_weight` — weight
units of the transaction assembled from the given input predictions and
output `script_pubkey` lengths.  Non-witness bytes (version, lock time,
count varints, outpoints, sequences, scripts, output values) weigh 4 each;
witness bytes (marker/flag pair, witness data, one empty-witness byte for
every witness-less input of a segwit transaction) weigh 1 each. -/
def predictWeight (inputs : List InputWeightPrediction)
    (outputScriptLens : List Nat) : Nat :=
  let inputCount := inputs.length
  let partialInputWeight := (inputs.map (fun p => p.weightWu)).sum
  let inputsWithWitnesses := (inputs.filter (fun p => 0 < p.witness_size)).length
  let outputCount := outputScriptLens.length
  let outputScriptsSize := (outputScriptLens.map (fun s => s + compactSizeLen s)).sum
  let inputWeight := partialInputWeight + inputCount * 4 * (32 + 4 + 4)
  let outputSize := 8 * outputCount + outputScriptsSize
  let nonWitnessWeight :=
    4 + 4 + compactSizeLen inputCount + compactSizeLen outputCount + outputSize
  if inputsWithWitnesses = 0 then nonWitnessWeight * 4 + inputWeight
  else nonWitnessWeight * 4 + 2 + inputWeight + (inputCount - inputsWithWitnesses)

/-- `Weight::to_vbytes_ceil`: `(wu + 3) / 4` in `u64` arithmetic. -/
def toVbytesCeil (wu : Nat) : Nat := (wu + 3) / 4

/-- The sort performed by `utxos.sort_by(|a, b| b.amount_sat.cmp(&a.amount_sat))`:
a stable sort into descending `amount_sat` order.  Rust's stable merge sort
and insertion sort agree on every input because a stable sort under a total
preorder has a unique result. -/
def sortDesc (utxos : List Utxo) : List Utxo :=
  List.insertionSort (fun u v => v.amount_sat ≤ u.amount_sat) utxos

/-- One iteration of the `for_each` selection loop: while the remaining
amount is positive, push the coin and subtract its amount. -/
def selectStep (acc : List Utxo × Int) (u : Utxo) : List Utxo × Int :=
  if 0 < acc.2 then (acc.1 ++ [u], wrapI64 (acc.2 - u.amount_sat)) else acc

/-- The per-input weight prediction chosen from the coin's address type.
prost's `address_type()` accessor maps the raw code 4 to
`AddressType::TaprootPubkey`; every other raw value (valid or not) falls to
the `_` arm of the match and yields `P2WPKH_MAX`. -/
def inputPrediction (u : Utxo) : InputWeightPrediction :=
  if u.address_type = 4 then P2TR_KEY_DEFAULT_SIGHASH else P2WPKH_MAX

/-- `predict_weight_for_inputs` from `lib.rs`: stable-sort the coins
largest-first, greedily select while the remaining amount (starting from
`amount as i64`) is positive, fail with `NotEnoughBitcoin` if a positive
amount remains, and otherwise map each selected coin to its weight
prediction. -/
def predict_weight_for_inputs (utxos : List Utxo) (amount : Nat) :
    Except FestivusError (List InputWeightPrediction) :=
  let sel := (sortDesc utxos).foldl selectStep ([], wrapI64 amount)
  if 0 < sel.2 then Except.error FestivusError.NotEnoughBitcoin
  else Except.ok (sel.1.map inputPrediction)

/-- The coins the selection loop accumulates (the `coins` vector). -/
def selectedCoins (utxos : List Utxo) (amount : Nat) : List Utxo :=
  ((sortDesc utxos).foldl selectStep ([], wrapI64 amount)).1

/-- The remaining amount after the selection loop. -/
def remainingAfter (utxos : List Utxo) (amount : Nat) : Int :=
  ((sortDesc utxos).foldl selectStep ([], wrapI64 amount)).2

/-- Script of the channel-funding output: `ScriptBuf::new_p2wsh` of a
32-byte script hash, i.e. `OP_0 PUSH32 <32 bytes>` — 34 bytes.  Modelled
from the spec: only the byte length of the hash matters, so the sha256
digest of the 43 zero bytes is replaced by 32 zero bytes. -/
def fundingScript : List Nat := 0 :: 32 :: List.replicate 32 0

/-- Script of the change output: `ScriptBuf::new_p2tr`, i.e.
`OP_1 PUSH32 <32-byte output key>`.  The tweaked output key derived from the
random placeholder keypair is abstracted as the 32 `outputKey` bytes. -/
def p2trScript (outputKey : List Nat) : List Nat := 81 :: 32 :: outputKey

/-- A transaction output as far as sizing is concerned. -/
structure TxOutM where
  value : Nat
  script_pubkey : List Nat

/-- The two fixed outputs of the sizing transaction: the 336-sat P2WSH
funding output and the 256-sat P2TR change output. -/
def txnOutputs (placeholderKey : List Nat) : List TxOutM :=
  [{ value := 336, script_pubkey := fundingScript },
   { value := 256, script_pubkey := p2trScript placeholderKey }]

/-- `Transaction::script_pubkey_lens`: the byte length of each output
script. -/
def scriptPubkeyLens (outs : List TxOutM) : List Nat :=
  outs.map (fun o => o.script_pubkey.length)

/-- The synthetic coin substituted when the caller passes no coin list:
`Utxo::default()` with `amount_sat = amount as i64`, an all-zero outpoint,
and `address_type = 1`. -/
def syntheticUtxo (amount : Nat) : Utxo :=
  { Utxo.mkDefault with
    amount_sat := wrapI64 amount
    address_type := 1
    outpoint := some
      { txid_bytes := List.replicate 64 48
        txid_str := "0000000000000000000000000000000000000000000000000000000000000000"
        output_index := 1 } }

/-- The coin list actually used: the caller's coins, or the single
synthetic coin when the argument is absent. -/
def coinListOrDefault (utxos : Option (List Utxo)) (amount : Nat) : List Utxo :=
  match utxos with
  | some u => u
  | none => [syntheticUtxo amount]

/-- The virtual-size portion of `calculate_fee`: substitute the synthetic
coin when the list is absent, run the selection / weight prediction, then
`predict_weight` over the two fixed outputs and `to_vbytes_ceil`. -/
def calcVsize (utxos : Option (List Utxo)) (amount : Nat)
    (placeholderKey : List Nat) : Except FestivusError Nat :=
  match predict_weight_for_inputs (coinListOrDefault utxos amount) amount with
  | Except.error e => Except.error e
  | Except.ok inputs =>
      Except.ok (toVbytesCeil
        (predictWeight inputs (scriptPubkeyLens (txnOutputs placeholderKey))))

/-- The final `ProjectedFees` record: per tier
`(virtual_bytes * rate, rate)` in wrapping `u64` arithmetic. -/
def projectFees (virtualBytes : Nat) (fees : RecommendedFess) : ProjectedFees :=
  { fastest_fee := (mulU64 virtualBytes fees.fastest_fee, fees.fastest_fee)
    half_hour_fee := (mulU64 virtualBytes fees.half_hour_fee, fees.half_hour_fee)
    hour_fee := (mulU64 virtualBytes fees.hour_fee, fees.hour_fee)
    economy_fee := (mulU64 virtualBytes fees.economy_fee, fees.economy_fee)
    minimum_fee := (mulU64 virtualBytes fees.minimum_fee, fees.minimum_fee) }

/-- The `RecommendedFess` built when the user supplies a fee rate: all five
tiers equal to that rate. -/
def uniformFees (r : Nat) : RecommendedFess :=
  { fastest_fee := r, half_hour_fee := r, hour_fee := r
    economy_fee := r, minimum_fee := r }

/-- `calculate_fee` from `lib.rs`.  The returned `Bool` records whether the
external fee oracle was consulted; `oracle` is what that single HTTP fetch
would produce (`Except.error` covering both transport and parse failures,
which the code collapses into `ReqwestError`). -/
def calculate_fee (utxos : Option (List Utxo)) (amount : Nat)
    (user_fee_rate : Option Nat) (placeholderKey : List Nat)
    (oracle : Except Unit RecommendedFess) :
    Except FestivusError ProjectedFees × Bool :=
  match calcVsize utxos amount placeholderKey with
  | Except.error e => (Except.error e, false)
  | Except.ok virtual_bytes =>
      match user_fee_rate with
      | some fee_rate =>
          (Except.ok (projectFees virtual_bytes (uniformFees fee_rate)), false)
      | none =>
          match oracle with
          | Except.error _ => (Except.error FestivusError.ReqwestError, true)
          | Except.ok fees => (Except.ok (projectFees virtual_bytes fees), true)

/-- A concrete 32-byte placeholder output key used in closed statements. -/
def key0 : List Nat := List.replicate 32 0

/-- Recursive restatement of the selection loop: once the remaining amount
is non-positive the loop keeps scanning but accumulates nothing, so the
tail contributes nothing. -/
def selectGo : List Utxo → Int → List Utxo × Int
  | [], r => ([], r)
  | u :: us, r =>
    if 0 < r then
      let p := selectGo us (wrapI64 (r - u.amount_sat))
      (u :: p.1, p.2)
    else ([], r)

/-- Total `amount_sat` of a list of coins (exact integer sum). -/
def sumAmt (l : List Utxo) : Int := (l.map (fun u => u.amount_sat)).sum

instance : IsTotal Utxo (fun u v => v.amount_sat ≤ u.amount_sat) :=
  ⟨fun a b => le_total b.amount_sat a.amount_sat⟩

instance : IsTrans Utxo (fun u v => v.amount_sat ≤ u.amount_sat) :=
  ⟨fun _ _ _ hab hbc => le_trans hbc hab⟩

/-- Modelled from the spec: the non-witness (base) byte count of the sizing
transaction — version (4), input-count varint, per input the 36-byte
outpoint, script bytes and 4-byte sequence, output-count varint, per output
the 8-byte value, script-length varint and script bytes, lock time (4). -/
def specBaseBytes (preds : List InputWeightPrediction)
    (outputScriptLens : List Nat) : Nat :=
  4 + compactSizeLen preds.length
    + (preds.map (fun p => 32 + 4 + p.script_size + 4)).sum
    + compactSizeLen outputScriptLens.length
    + (outputScriptLens.map (fun s => 8 + compactSizeLen s + s)).sum
    + 4

/-- Modelled from the spec: the witness byte count — nothing for a legacy
transaction, otherwise the 2 marker/flag bytes, all predicted witness data,
and one empty-witness byte per witness-less input. -/
def specWitnessBytes (preds : List InputWeightPrediction) : Nat :=
  if (preds.filter (fun p => 0 < p.witness_size)).length = 0 then 0
  else 2 + (preds.map (fun p => p.witness_size)).sum
    + (preds.length - (preds.filter (fun p => 0 < p.witness_size)).length)

/-- Modelled from the spec: ceiling division, `⌈a / b⌉`. -/
def specCeilDiv (a b : Nat) : Nat := a / b + (if a % b = 0 then 0 else 1)

/-- The spec's closed two-case classification of a coin's spending
condition. -/
inductive Classification where
  | TaprootKeyPath
  | WitnessPubkeyHash
deriving DecidableEq

/-- A coin's classification: raw address-type code 4 (`TaprootPubkey`) is a
taproot key-path spend; every other raw code is treated as
witness-pubkey-hash by the `_` arm of the match in the source. -/
def classification (u : Utxo) : Classification :=
  if u.address_type = 4 then Classification.TaprootKeyPath
  else Classification.WitnessPubkeyHash

/-- The fixed weight contribution of each classification. -/
def classWeight : Classification → InputWeightPrediction
  | Classification.TaprootKeyPath => P2TR_KEY_DEFAULT_SIGHASH
  | Classification.WitnessPubkeyHash => P2WPKH_MAX

/-! ### Proof-side recursion for the selection loop -/

theorem selectGo_of_nonpos (l : List Utxo) (r : Int) (h : ¬ 0 < r) :
    selectGo l r = ([], r) := by
  cases l with
  | nil => rfl
  | cons u us => simp [selectGo, h]

theorem foldl_selectStep_eq (l : List Utxo) (acc : List Utxo) (r : Int) :
    l.foldl selectStep (acc, r) = (acc ++ (selectGo l r).1, (selectGo l r).2) := by
  induction l generalizing acc r with
  | nil => simp [selectGo]
  | cons u us ih =>
    by_cases h : 0 < r
    · simp only [List.foldl_cons, selectStep, h, if_pos]
      rw [ih]
      simp [selectGo, h]
    · simp only [List.foldl_cons, selectStep, h, if_neg, not_false_iff]
      rw [ih, selectGo_of_nonpos us r h, selectGo_of_nonpos (u :: us) r h]

theorem selectedCoins_eq (l : List Utxo) (t : Nat) :
    selectedCoins l t = (selectGo (sortDesc l) (wrapI64 t)).1 := by
  simp [selectedCoins, foldl_selectStep_eq]

theorem remainingAfter_eq (l : List Utxo) (t : Nat) :
    remainingAfter l t = (selectGo (sortDesc l) (wrapI64 t)).2 := by
  simp [remainingAfter, foldl_selectStep_eq]

theorem predict_weight_for_inputs_eq (l : List Utxo) (t : Nat) :
    predict_weight_for_inputs l t =
      if 0 < (selectGo (sortDesc l) (wrapI64 t)).2
      then Except.error FestivusError.NotEnoughBitcoin
      else Except.ok ((selectGo (sortDesc l) (wrapI64 t)).1.map inputPrediction) := by
  simp [predict_weight_for_inputs, foldl_selectStep_eq]

/-! ### Arithmetic facts about the i64 wrap -/

theorem wrapI64_eq_self (x : Int) (h1 : -(2 ^ 63) ≤ x) (h2 : x < 2 ^ 63) :
    wrapI64 x = x := by
  unfold wrapI64; omega

theorem wrapI64_big (t : Nat) (h1 : 2 ^ 63 ≤ t) (h2 : t < 2 ^ 64) :
    wrapI64 (t : Int) = (t : Int) - 2 ^ 64 := by
  unfold wrapI64; omega

/-! ### Sums of coin amounts -/

@[simp] theorem sumAmt_nil : sumAmt [] = 0 := rfl

@[simp] theorem sumAmt_cons (u : Utxo) (l : List Utxo) :
    sumAmt (u :: l) = u.amount_sat + sumAmt l := by
  simp [sumAmt]

theorem sumAmt_append (a b : List Utxo) :
    sumAmt (a ++ b) = sumAmt a + sumAmt b := by
  simp [sumAmt]

theorem sumAmt_nonneg (l : List Utxo) (h : ∀ u ∈ l, 0 ≤ u.amount_sat) :
    0 ≤ sumAmt l := by
  induction l with
  | nil => simp
  | cons u us ih =>
    have := h u (List.mem_cons_self u us)
    have := ih (fun v hv => h v (List.mem_cons_of_mem u hv))
    simp only [sumAmt_cons]
    omega

theorem sumAmt_take_le (l : List Utxo) (k : Nat)
    (h : ∀ u ∈ l, 0 ≤ u.amount_sat) :
    sumAmt (l.take k) ≤ sumAmt l := by
  have hsplit : l = l.take k ++ l.drop k := (List.take_append_drop k l).symm
  have hdrop : 0 ≤ sumAmt (l.drop k) :=
    sumAmt_nonneg _ (fun u hu => h u (List.mem_of_mem_drop hu))
  calc sumAmt (l.take k) ≤ sumAmt (l.take k) + sumAmt (l.drop k) := by omega
    _ = sumAmt l := by rw [← sumAmt_append, ← hsplit]

theorem sumAmt_perm {a b : List Utxo} (h : a.Perm b) : sumAmt a = sumAmt b :=
  List.Perm.sum_eq (h.map (fun u => u.amount_sat))

/-! ### The greedy-selection invariant -/

/-- Invariant of the selection loop under in-range inputs: the remaining
amount tracks the exact integer shortfall, the loop either reaches a
non-positive remainder or consumes the whole list, and before the last
selected coin the remainder was still positive. -/
theorem selectGo_cons_pos (u : Utxo) (us : List Utxo) (r : Int) (h : 0 < r) :
    selectGo (u :: us) r =
      (u :: (selectGo us (wrapI64 (r - u.amount_sat))).1,
       (selectGo us (wrapI64 (r - u.amount_sat))).2) := by
  simp [selectGo, h]

/-- Invariant of the selection loop under in-range inputs: the remaining
amount tracks the exact integer shortfall, the loop either reaches a
non-positive remainder or consumes the whole list, and before the last
selected coin the remainder was still positive. -/
theorem selectGo_spec (l : List Utxo) (r : Int) (hr : r < 2 ^ 63)
    (hb : ∀ u ∈ l, 0 ≤ u.amount_sat ∧ u.amount_sat < 2 ^ 63) :
    (selectGo l r).2 = r - sumAmt (selectGo l r).1
    ∧ ((selectGo l r).2 ≤ 0 ∨ (selectGo l r).1 = l)
    ∧ ((selectGo l r).1 ≠ [] → 0 < r - sumAmt (selectGo l r).1.dropLast) := by
  induction l generalizing r with
  | nil =>
    simp [selectGo]
  | cons u us ih =>
    by_cases h : 0 < r
    · have hu := hb u (List.mem_cons_self u us)
      have hw : wrapI64 (r - u.amount_sat) = r - u.amount_sat :=
        wrapI64_eq_self _ (by omega) (by omega)
      have ihspec := ih (r - u.amount_sat) (by omega)
        (fun v hv => hb v (List.mem_cons_of_mem u hv))
      rw [selectGo_cons_pos u us r h, hw]
      refine ⟨?_, ?_, ?_⟩
      · rw [ihspec.1, sumAmt_cons]
        omega
      · rcases ihspec.2.1 with h2 | h2
        · exact Or.inl h2
        · exact Or.inr (by rw [h2])
      · intro _
        rcases hgo : (selectGo us (r - u.amount_sat)).1 with _ | ⟨v, vs⟩
        · simp only [List.dropLast_single, sumAmt_nil]
          omega
        · have h3 := ihspec.2.2 (by rw [hgo]; simp)
          rw [hgo] at h3
          have hd : (u :: v :: vs).dropLast = u :: (v :: vs).dropLast := by simp
          simp only [hd, sumAmt_cons]
          omega
    · rw [selectGo_of_nonpos _ _ h]
      exact ⟨by simp, Or.inl (by omega), by simp⟩

/-- The selection is a prefix of the scanned list. -/
theorem selectGo_take (l : List Utxo) (r : Int) :
    ∃ k, (selectGo l r).1 = l.take k := by
  induction l generalizing r with
  | nil => exact ⟨0, rfl⟩
  | cons u us ih =>
    by_cases h : 0 < r
    · obtain ⟨k, hk⟩ := ih (wrapI64 (r - u.amount_sat))
      exact ⟨k + 1, by simp [selectGo, h, hk]⟩
    · exact ⟨0, by rw [selectGo_of_nonpos _ _ h]; rfl⟩

/-! ### Stability of the sort -/

theorem sortDesc_sorted (l : List Utxo) :
    List.Sorted (fun u v => v.amount_sat ≤ u.amount_sat) (sortDesc l) :=
  List.sorted_insertionSort _ l

theorem sortDesc_perm (l : List Utxo) : (sortDesc l).Perm l :=
  List.perm_insertionSort _ l

/-- Inserting a coin never disturbs the relative order of the coins of any
one amount: the coins it jumps over all have strictly larger amounts. -/
theorem filter_orderedInsert_amt (a : Int) (u : Utxo) (l : List Utxo) :
    (List.orderedInsert (fun u v => v.amount_sat ≤ u.amount_sat) u l).filter
        (fun v => decide (v.amount_sat = a))
      = if u.amount_sat = a
        then u :: l.filter (fun v => decide (v.amount_sat = a))
        else l.filter (fun v => decide (v.amount_sat = a)) := by
  induction l with
  | nil =>
    by_cases hu : u.amount_sat = a <;> simp [List.filter, hu]
  | cons v vs ih =>
    by_cases hr : v.amount_sat ≤ u.amount_sat
    · simp only [List.orderedInsert, if_pos hr]
      by_cases hu : u.amount_sat = a <;> by_cases hv : v.amount_sat = a <;>
        simp [List.filter_cons, hu, hv]
    · simp only [List.orderedInsert, if_neg hr]
      by_cases hu : u.amount_sat = a
      · have hv : ¬ v.amount_sat = a := by omega
        simp [List.filter_cons, hv, ih, hu]
      · by_cases hv : v.amount_sat = a <;> simp [List.filter_cons, hv, ih, hu]

/-- The stable sort leaves the coins of any one amount in their original
relative order. -/
theorem filter_sortDesc (a : Int) (l : List Utxo) :
    (sortDesc l).filter (fun v => decide (v.amount_sat = a))
      = l.filter (fun v => decide (v.amount_sat = a)) := by
  induction l with
  | nil => rfl
  | cons u us ih =>
    show (List.orderedInsert _ u (List.insertionSort _ us)).filter _ = _
    rw [filter_orderedInsert_amt]
    by_cases hu : u.amount_sat = a <;> simp [List.filter_cons, hu, ← ih, sortDesc]

/-! ### Weight-unit bookkeeping for the virtual-size claim -/

theorem sum_weightWu (preds : List InputWeightPrediction) :
    (preds.map (fun p => p.weightWu)).sum
      = 4 * (preds.map (fun p => p.script_size)).sum
        + (preds.map (fun p => p.witness_size)).sum := by
  induction preds with
  | nil => rfl
  | cons p ps ih =>
    simp only [List.map_cons, List.sum_cons]
    rw [ih]
    simp only [InputWeightPrediction.weightWu]
    omega

theorem sum_inputBytes (preds : List InputWeightPrediction) :
    (preds.map (fun p => 32 + 4 + p.script_size + 4)).sum
      = 40 * preds.length + (preds.map (fun p => p.script_size)).sum := by
  induction preds with
  | nil => rfl
  | cons p ps ih =>
    simp only [List.map_cons, List.sum_cons, List.length_cons, ih]
    omega

theorem sum_outputBytes (lens : List Nat) :
    (lens.map (fun s => 8 + compactSizeLen s + s)).sum
      = 8 * lens.length + (lens.map (fun s => s + compactSizeLen s)).sum := by
  induction lens with
  | nil => rfl
  | cons s ss ih =>
    simp only [List.map_cons, List.sum_cons, List.length_cons, ih]
    omega

theorem sum_witness_zero (preds : List InputWeightPrediction)
    (h : (preds.filter (fun p => 0 < p.witness_size)).length = 0) :
    (preds.map (fun p => p.witness_size)).sum = 0 := by
  apply List.sum_eq_zero
  intro x hx
  rw [List.length_eq_zero] at h
  rw [List.filter_eq_nil_iff] at h
  rw [List.mem_map] at hx
  obtain ⟨p, hp, rfl⟩ := hx
  have := h p hp
  simp at this
  omega

/-- The weight units computed by the predictor are exactly four times the
non-witness bytes plus one times the witness bytes. -/
theorem predictWeight_eq_spec (preds : List InputWeightPrediction)
    (lens : List Nat) :
    predictWeight preds lens
      = 4 * specBaseBytes preds lens + specWitnessBytes preds := by
  unfold predictWeight specBaseBytes specWitnessBytes
  simp only [sum_weightWu, sum_inputBytes, sum_outputBytes]
  by_cases hiww : (preds.filter (fun p => 0 < p.witness_size)).length = 0
  · have hW := sum_witness_zero preds hiww
    rw [if_pos hiww, if_pos hiww, hW]
    omega
  · rw [if_neg hiww, if_neg hiww]
    omega

/-! ### Unfolding helpers for `calcVsize` and `calculate_fee` -/

theorem coinListOrDefault_some (l : List Utxo) (amount : Nat) :
    coinListOrDefault (some l) amount = l := rfl

theorem coinListOrDefault_none (amount : Nat) :
    coinListOrDefault none amount = [syntheticUtxo amount] := rfl

theorem calcVsize_match_eq (utxos : Option (List Utxo)) (amount : Nat) (key : List Nat) :
    calcVsize utxos amount key
      = match predict_weight_for_inputs (coinListOrDefault utxos amount) amount with
        | Except.error e => Except.error e
        | Except.ok inputs =>
            Except.ok (toVbytesCeil
              (predictWeight inputs (scriptPubkeyLens (txnOutputs key)))) := rfl

theorem calcVsize_some_eq (l : List Utxo) (amount : Nat) (key : List Nat) :
    calcVsize (some l) amount key
      = match predict_weight_for_inputs l amount with
        | Except.error e => Except.error e
        | Except.ok inputs =>
            Except.ok (toVbytesCeil
              (predictWeight inputs (scriptPubkeyLens (txnOutputs key)))) := rfl

theorem calcVsize_none_eq (amount : Nat) (key : List Nat) :
    calcVsize none amount key = calcVsize (some [syntheticUtxo amount]) amount key := by
  rw [calcVsize_match_eq, calcVsize_match_eq, coinListOrDefault_none, coinListOrDefault_some]

theorem calcVsize_ok (l : List Utxo) (amount : Nat) (key : List Nat)
    (preds : List InputWeightPrediction)
    (h : predict_weight_for_inputs l amount = Except.ok preds) :
    calcVsize (some l) amount key
      = Except.ok (toVbytesCeil
          (predictWeight preds (scriptPubkeyLens (txnOutputs key)))) := by
  rw [calcVsize_some_eq, h]

theorem calcVsize_err (l : List Utxo) (amount : Nat) (key : List Nat)
    (e : FestivusError)
    (h : predict_weight_for_inputs l amount = Except.error e) :
    calcVsize (some l) amount key = Except.error e := by
  rw [calcVsize_some_eq, h]

theorem calculate_fee_eq (utxos : Option (List Utxo)) (amount : Nat)
    (user_fee_rate : Option Nat) (key : List Nat)
    (oracle : Except Unit RecommendedFess) :
    calculate_fee utxos amount user_fee_rate key oracle
      = match calcVsize utxos amount key with
        | Except.error e => (Except.error e, false)
        | Except.ok virtual_bytes =>
            match user_fee_rate with
            | some fee_rate =>
                (Except.ok (projectFees virtual_bytes (uniformFees fee_rate)), false)
            | none =>
                match oracle with
                | Except.error _ => (Except.error FestivusError.ReqwestError, true)
                | Except.ok fees => (Except.ok (projectFees virtual_bytes fees), true) := rfl

theorem calculate_fee_of_err (utxos : Option (List Utxo)) (amount : Nat)
    (ufr : Option Nat) (key : List Nat) (oracle : Except Unit RecommendedFess)
    (e : FestivusError) (h : calcVsize utxos amount key = Except.error e) :
    calculate_fee utxos amount ufr key oracle = (Except.error e, false) := by
  rw [calculate_fee_eq, h]

theorem calculate_fee_of_rate (utxos : Option (List Utxo)) (amount : Nat)
    (r : Nat) (key : List Nat) (oracle : Except Unit RecommendedFess)
    (vb : Nat) (h : calcVsize utxos amount key = Except.ok vb) :
    calculate_fee utxos amount (some r) key oracle
      = (Except.ok (projectFees vb (uniformFees r)), false) := by
  rw [calculate_fee_eq, h]

theorem calculate_fee_of_fetch (utxos : Option (List Utxo)) (amount : Nat)
    (key : List Nat) (f : RecommendedFess) (vb : Nat)
    (h : calcVsize utxos amount key = Except.ok vb) :
    calculate_fee utxos amount none key (Except.ok f)
      = (Except.ok (projectFees vb f), true) := by
  rw [calculate_fee_eq, h]

/-! ### C4 — virtual size is the ceiling of weight units over four -/

/-- C4: the virtual size reported by the weight estimator equals the ceiling
of the weight units divided by four, where the weight units are four times
the non-witness byte count plus the witness byte count — a true ceiling, not
a floor — for every prediction list and output layout, hence for every
selected-coin set. -/
theorem vsize_eq_ceil_weight_units (preds : List InputWeightPrediction)
    (lens : List Nat) :
    toVbytesCeil (predictWeight preds lens)
      = specCeilDiv (4 * specBaseBytes preds lens + specWitnessBytes preds) 4 := by
  rw [← predictWeight_eq_spec]
  unfold toVbytesCeil specCeilDiv
  by_cases h : predictWeight preds lens % 4 = 0 <;> simp [h] <;> omega

/-! ### C5 — descending stable sort and order-preserving selection -/

/-- C5: coin selection sorts by `amount_sat` descending with a stable sort —
the sorted list is descending, the coins of any one amount keep their
original relative order after sorting, and the selection restricted to any
one amount is an order-preserving prefix of the input list restricted to
that amount. -/
theorem selection_sort_stable (l : List Utxo) (t : Nat) (a : Int) :
    List.Sorted (fun u v => v.amount_sat ≤ u.amount_sat) (sortDesc l)
    ∧ (sortDesc l).filter (fun v => decide (v.amount_sat = a))
        = l.filter (fun v => decide (v.amount_sat = a))
    ∧ (selectedCoins l t).filter (fun v => decide (v.amount_sat = a))
        <+: l.filter (fun v => decide (v.amount_sat = a)) := by
  refine ⟨sortDesc_sorted l, filter_sortDesc a l, ?_⟩
  rw [selectedCoins_eq, ← filter_sortDesc a l]
  obtain ⟨k, hk⟩ := selectGo_take (sortDesc l) (wrapI64 (t : Int))
  rw [hk]
  refine ⟨((sortDesc l).drop k).filter (fun v => decide (v.amount_sat = a)), ?_⟩
  rw [← List.filter_append, List.take_append_drop]

/-! ### C6 — override short-circuits the oracle -/

/-- C6: when a fee-rate override is supplied the oracle is never consulted,
and whenever the call succeeds all five tiers carry exactly the override
rate. -/
theorem override_uniform_no_fetch (utxos : Option (List Utxo)) (amount : Nat)
    (r : Nat) (key : List Nat) (oracle : Except Unit RecommendedFess) :
    (calculate_fee utxos amount (some r) key oracle).2 = false
    ∧ ∀ P, (calculate_fee utxos amount (some r) key oracle).1 = Except.ok P →
        P.fastest_fee.2 = r ∧ P.half_hour_fee.2 = r ∧ P.hour_fee.2 = r
        ∧ P.economy_fee.2 = r ∧ P.minimum_fee.2 = r := by
  rcases hv : calcVsize utxos amount key with e | vb
  · rw [calculate_fee_of_err utxos amount (some r) key oracle e hv]
    exact ⟨rfl, fun P hP => by cases hP⟩
  · rw [calculate_fee_of_rate utxos amount r key oracle vb hv]
    refine ⟨rfl, fun P hP => ?_⟩
    injection hP with hP
    rw [← hP]
    exact ⟨rfl, rfl, rfl, rfl, rfl⟩

theorem override_uniform_no_fetch_witness :
    (calculate_fee (some [{ amount_sat := 19000, address_type := 4, outpoint := none }])
        19000 (some 50) key0 (Except.error ())).2 = false
    ∧ ((projectFees 154 (uniformFees 50)).fastest_fee.2 = 50
       ∧ (projectFees 154 (uniformFees 50)).half_hour_fee.2 = 50
       ∧ (projectFees 154 (uniformFees 50)).hour_fee.2 = 50
       ∧ (projectFees 154 (uniformFees 50)).economy_fee.2 = 50
       ∧ (projectFees 154 (uniformFees 50)).minimum_fee.2 = 50) :=
  ⟨(override_uniform_no_fetch
      (some [{ amount_sat := 19000, address_type := 4, outpoint := none }])
      19000 50 key0 (Except.error ())).1,
   (override_uniform_no_fetch
      (some [{ amount_sat := 19000, address_type := 4, outpoint := none }])
      19000 50 key0 (Except.error ())).2 (projectFees 154 (uniformFees 50)) rfl⟩

/-! ### C9 — the random placeholder key cannot influence the result -/

/-- C9: the result of `calculate_fee` is identical for any two 32-byte
placeholder keys: the weight model sees only the byte length of the derived
change script, never the key content, so the freshly generated random key
cannot make two runs on the same inputs differ. -/
theorem result_key_independent (utxos : Option (List Utxo)) (amount : Nat)
    (ufr : Option Nat) (oracle : Except Unit RecommendedFess)
    (k1 k2 : List Nat) (h1 : k1.length = 32) (h2 : k2.length = 32) :
    calculate_fee utxos amount ufr k1 oracle
      = calculate_fee utxos amount ufr k2 oracle := by
  have hlens : scriptPubkeyLens (txnOutputs k1) = scriptPubkeyLens (txnOutputs k2) := by
    simp [scriptPubkeyLens, txnOutputs, p2trScript, h1, h2]
  unfold calculate_fee calcVsize
  rw [hlens]

theorem result_key_independent_witness :
    (List.replicate 32 0).length = 32
    ∧ (List.replicate 32 1).length = 32
    ∧ calculate_fee none 19000 (some 1) (List.replicate 32 0) (Except.error ())
        = calculate_fee none 19000 (some 1) (List.replicate 32 1) (Except.error ()) :=
  ⟨by decide, by decide,
   result_key_independent none 19000 (some 1) (Except.error ())
     (List.replicate 32 0) (List.replicate 32 1) (by decide) (by decide)⟩

/-! ### C10 — targets above the i64 maximum wrap and select nothing -/

/-- C10: for every target strictly above `2^63 - 1` (and below `2^64`), the
`as i64` cast wraps the target to a non-positive value, so the selection
loop selects zero coins and `predict_weight_for_inputs` succeeds with an
empty prediction list for every coin list, the empty one included. -/
theorem huge_target_selects_nothing (t : Nat) (l : List Utxo)
    (h1 : 2 ^ 63 - 1 < t) (h2 : t < 2 ^ 64) :
    wrapI64 (t : Int) ≤ 0
    ∧ selectedCoins l t = []
    ∧ predict_weight_for_inputs l t = Except.ok [] := by
  have hw : wrapI64 (t : Int) = (t : Int) - 2 ^ 64 := wrapI64_big t (by omega) h2
  have hnp : ¬ (0 : Int) < wrapI64 (t : Int) := by rw [hw]; omega
  refine ⟨by omega, ?_, ?_⟩
  · rw [selectedCoins_eq, selectGo_of_nonpos _ _ hnp]
  · rw [predict_weight_for_inputs_eq, selectGo_of_nonpos _ _ hnp]
    simp [hnp]

theorem huge_target_selects_nothing_witness :
    (2 ^ 63 - 1 < 2 ^ 63 ∧ (2 ^ 63 : Nat) < 2 ^ 64)
    ∧ (wrapI64 ((2 ^ 63 : Nat) : Int) ≤ 0
       ∧ selectedCoins [] (2 ^ 63) = []
       ∧ predict_weight_for_inputs [] (2 ^ 63) = Except.ok []) :=
  ⟨⟨by decide, by decide⟩,
   huge_target_selects_nothing (2 ^ 63) [] (by decide) (by decide)⟩

/-! ### C8 — per-input weight determined solely by classification -/

/-- C8: on success the per-input weight predictions are exactly the selected
coins mapped through their classification — taproot key-path coins
contribute the fixed default-sighash key-path witness weight and all other
coins the fixed maximum signature-plus-compressed-pubkey witness weight, so
the contribution depends on nothing but the classification. -/
theorem predictions_from_classification (l : List Utxo) (t : Nat)
    (preds : List InputWeightPrediction)
    (h : predict_weight_for_inputs l t = Except.ok preds) :
    preds = (selectedCoins l t).map (fun u => classWeight (classification u)) := by
  have hfun : inputPrediction = fun u => classWeight (classification u) := by
    funext u
    unfold inputPrediction classification classWeight
    by_cases h4 : u.address_type = 4 <;> simp [h4]
  rw [predict_weight_for_inputs_eq] at h
  by_cases hc : 0 < (selectGo (sortDesc l) (wrapI64 (t : Int))).2
  · rw [if_pos hc] at h
    cases h
  · rw [if_neg hc] at h
    injection h with h
    rw [← h, selectedCoins_eq, hfun]

theorem predictions_from_classification_witness :
    predict_weight_for_inputs
        [{ amount_sat := 19000, address_type := 4, outpoint := none }] 19000
      = Except.ok [P2TR_KEY_DEFAULT_SIGHASH]
    ∧ [P2TR_KEY_DEFAULT_SIGHASH]
      = (selectedCoins [{ amount_sat := 19000, address_type := 4, outpoint := none }] 19000).map
          (fun u => classWeight (classification u)) :=
  ⟨rfl,
   predictions_from_classification
     [{ amount_sat := 19000, address_type := 4, outpoint := none }] 19000
     [P2TR_KEY_DEFAULT_SIGHASH] rfl⟩

/-! ### C1 — shortfall fails fast, before any fetch -/

/-- C1 (counterexample): a target above the i64 maximum defeats the
shortfall guarantee — with an empty coin list (total 0, far below the
target) the call does not return `NotEnoughBitcoin`; it succeeds. -/
theorem shortfall_claim_counterexample :
    sumAmt [] < ((9223372036854775808 : Nat) : Int)
    ∧ (calculate_fee (some []) 9223372036854775808 (some 7) key0
        (Except.error ())).1 ≠ Except.error FestivusError.NotEnoughBitcoin
    ∧ ((calculate_fee (some []) 9223372036854775808 (some 7) key0
        (Except.error ())).1).isOk = true := by
  refine ⟨by decide, fun hcontra => ?_, rfl⟩
  have he : (calculate_fee (some []) 9223372036854775808 (some 7) key0
      (Except.error ())).1 = Except.ok (projectFees 96 (uniformFees 7)) := rfl
  rw [he] at hcontra
  exact Except.noConfusion hcontra

/-- C1 (amended): for a coin list whose amounts are valid nonnegative i64
values and a target below `2^63`, a total shortfall makes `calculate_fee`
return `NotEnoughBitcoin` with the oracle never consulted (fetch flag
`false`), whatever the override, key, or oracle behaviour. -/
theorem shortfall_no_fetch (l : List Utxo) (t : Nat)
    (ht : t < 2 ^ 63)
    (hb : ∀ u ∈ l, 0 ≤ u.amount_sat ∧ u.amount_sat < 2 ^ 63)
    (hs : sumAmt l < (t : Int))
    (ufr : Option Nat) (key : List Nat) (oracle : Except Unit RecommendedFess) :
    calculate_fee (some l) t ufr key oracle
      = (Except.error FestivusError.NotEnoughBitcoin, false) := by
  have hw : wrapI64 (t : Int) = (t : Int) := wrapI64_eq_self _ (by omega) (by omega)
  have hbs : ∀ u ∈ sortDesc l, 0 ≤ u.amount_sat ∧ u.amount_sat < 2 ^ 63 :=
    fun u hu => hb u ((sortDesc_perm l).mem_iff.mp hu)
  have hspec := selectGo_spec (sortDesc l) (t : Int) (by omega) hbs
  have h2 : sumAmt (sortDesc l) = sumAmt l := sumAmt_perm (sortDesc_perm l)
  have hfin : 0 < (selectGo (sortDesc l) (t : Int)).2 := by
    rcases hspec.2.1 with hle | heq
    · obtain ⟨k, hk⟩ := selectGo_take (sortDesc l) (t : Int)
      have h1 : sumAmt (selectGo (sortDesc l) (t : Int)).1 ≤ sumAmt (sortDesc l) := by
        rw [hk]
        exact sumAmt_take_le _ _ (fun u hu => (hbs u hu).1)
      have h3 := hspec.1
      omega
    · have h3 := hspec.1
      rw [heq] at h3
      omega
  have herr : predict_weight_for_inputs l t
      = Except.error FestivusError.NotEnoughBitcoin := by
    rw [predict_weight_for_inputs_eq, hw, if_pos hfin]
  exact calculate_fee_of_err _ _ _ _ _ _
    (calcVsize_err l t key FestivusError.NotEnoughBitcoin herr)

theorem shortfall_no_fetch_witness :
    ((19000 : Nat) < 2 ^ 63
     ∧ (∀ u ∈ [{ amount_sat := 10000, address_type := 4, outpoint := none },
               { amount_sat := 5000, address_type := 0, outpoint := none }],
          0 ≤ Utxo.amount_sat u ∧ Utxo.amount_sat u < 2 ^ 63)
     ∧ sumAmt [{ amount_sat := 10000, address_type := 4, outpoint := none },
               { amount_sat := 5000, address_type := 0, outpoint := none }]
         < ((19000 : Nat) : Int))
    ∧ calculate_fee
        (some [{ amount_sat := 10000, address_type := 4, outpoint := none },
               { amount_sat := 5000, address_type := 0, outpoint := none }])
        19000 none key0 (Except.ok (uniformFees 3))
      = (Except.error FestivusError.NotEnoughBitcoin, false) :=
  ⟨⟨by norm_num, by decide, by decide⟩,
   shortfall_no_fetch
     [{ amount_sat := 10000, address_type := 4, outpoint := none },
      { amount_sat := 5000, address_type := 0, outpoint := none }]
     19000 (by norm_num) (by decide) (by decide)
     none key0 (Except.ok (uniformFees 3))⟩

/-! ### C3 — coverage and minimality of the greedy selection -/

/-- C3 (counterexample): with a target above the i64 maximum the selection
succeeds on the empty coin list while the selected amounts sum to zero,
far below the target — the coverage property fails as universally stated. -/
theorem selection_coverage_counterexample :
    (predict_weight_for_inputs [] 9223372036854775808).isOk = true
    ∧ selectedCoins [] 9223372036854775808 = []
    ∧ sumAmt (selectedCoins [] 9223372036854775808)
        < ((9223372036854775808 : Nat) : Int) := by
  exact ⟨rfl, rfl, by decide⟩

/-- C3 (amended): for a coin list of valid nonnegative i64 amounts and a
target below `2^63`, whenever selection succeeds the selected amounts sum to
at least the target, and if any coin was selected, dropping the
last-selected coin brings the sum strictly below the target (the selection
is a minimal greedy prefix of the sorted order). -/
theorem selection_covers_target (l : List Utxo) (t : Nat)
    (ht : t < 2 ^ 63)
    (hb : ∀ u ∈ l, 0 ≤ u.amount_sat ∧ u.amount_sat < 2 ^ 63)
    (hok : (predict_weight_for_inputs l t).isOk = true) :
    (t : Int) ≤ sumAmt (selectedCoins l t)
    ∧ (selectedCoins l t ≠ [] →
        sumAmt (selectedCoins l t).dropLast < (t : Int)) := by
  have hw : wrapI64 (t : Int) = (t : Int) := wrapI64_eq_self _ (by omega) (by omega)
  have hbs : ∀ u ∈ sortDesc l, 0 ≤ u.amount_sat ∧ u.amount_sat < 2 ^ 63 :=
    fun u hu => hb u ((sortDesc_perm l).mem_iff.mp hu)
  have hspec := selectGo_spec (sortDesc l) (t : Int) (by omega) hbs
  rw [predict_weight_for_inputs_eq, hw] at hok
  by_cases hpos : 0 < (selectGo (sortDesc l) (t : Int)).2
  · rw [if_pos hpos] at hok
    cases hok
  · rw [selectedCoins_eq, hw]
    have h3 := hspec.1
    refine ⟨by omega, fun hne => ?_⟩
    have h4 := hspec.2.2 hne
    omega

theorem selection_covers_target_witness :
    ((19000 : Nat) < 2 ^ 63
     ∧ (∀ u ∈ [{ amount_sat := 10000, address_type := 4, outpoint := none },
               { amount_sat := 5000, address_type := 0, outpoint := none },
               { amount_sat := 8000, address_type := 0, outpoint := none }],
          0 ≤ Utxo.amount_sat u ∧ Utxo.amount_sat u < 2 ^ 63)
     ∧ (predict_weight_for_inputs
          [{ amount_sat := 10000, address_type := 4, outpoint := none },
           { amount_sat := 5000, address_type := 0, outpoint := none },
           { amount_sat := 8000, address_type := 0, outpoint := none }] 19000).isOk = true)
    ∧ ((19000 : Nat) : Int)
        ≤ sumAmt (selectedCoins
            [{ amount_sat := 10000, address_type := 4, outpoint := none },
             { amount_sat := 5000, address_type := 0, outpoint := none },
             { amount_sat := 8000, address_type := 0, outpoint := none }] 19000)
    ∧ sumAmt (selectedCoins
          [{ amount_sat := 10000, address_type := 4, outpoint := none },
           { amount_sat := 5000, address_type := 0, outpoint := none },
           { amount_sat := 8000, address_type := 0, outpoint := none }] 19000).dropLast
        < ((19000 : Nat) : Int) :=
  ⟨⟨by norm_num, by decide, rfl⟩,
   (selection_covers_target
     [{ amount_sat := 10000, address_type := 4, outpoint := none },
      { amount_sat := 5000, address_type := 0, outpoint := none },
      { amount_sat := 8000, address_type := 0, outpoint := none }] 19000
     (by norm_num) (by decide) rfl).1,
   (selection_covers_target
     [{ amount_sat := 10000, address_type := 4, outpoint := none },
      { amount_sat := 5000, address_type := 0, outpoint := none },
      { amount_sat := 8000, address_type := 0, outpoint := none }] 19000
     (by norm_num) (by decide) rfl).2 (by decide)⟩

/-! ### C2 — the synthetic default coin -/

/-- Selecting against a single coin whose amount equals the (in-range)
target selects exactly that coin. -/
theorem single_coin_predict (u : Utxo) (T : Nat) (h0 : 0 < T) (h1 : T < 2 ^ 63)
    (hamt : u.amount_sat = (T : Int)) :
    predict_weight_for_inputs [u] T = Except.ok [inputPrediction u] := by
  have hw : wrapI64 (T : Int) = (T : Int) := wrapI64_eq_self _ (by omega) (by omega)
  have hpos : (0 : Int) < (T : Int) := by omega
  have hw0 : wrapI64 ((T : Int) - u.amount_sat) = 0 := by
    rw [hamt, sub_self]
    decide
  have hsort : sortDesc [u] = [u] := rfl
  have hgo : selectGo [u] ((T : Int)) = ([u], 0) := by
    rw [selectGo_cons_pos u [] _ hpos, hw0]
    rfl
  rw [predict_weight_for_inputs_eq, hsort, hw, hgo]
  rfl

/-- C2 (counterexample): with the coin list absent and target 19000, the
virtual size is 165 vbytes — the one-P2WPKH-input size — whereas the
one-Taproot-input case is 154 vbytes, so the synthetic coin is not treated
as a TaprootKeyPath coin. -/
theorem synthetic_coin_counterexample :
    calcVsize none 19000 key0 = Except.ok 165
    ∧ calcVsize (some [{ amount_sat := 19000, address_type := 4, outpoint := none }])
        19000 key0 = Except.ok 154
    ∧ (165 : Nat) ≠ 154 :=
  ⟨rfl, rfl, by decide⟩

/-- C2 (amended): when the coin list is absent a single synthetic coin of
amount `target` with raw address type 1 is substituted; it is classified as
`WitnessPubkeyHash`, not taproot, so for every target in `(0, 2^63)` the
virtual size equals that of the one-P2WPKH-input case (165 vbytes) and the
call succeeds given a fee-rate source. -/
theorem synthetic_coin_default (T : Nat) (h0 : 0 < T) (h1 : T < 2 ^ 63)
    (key : List Nat) (hk : key.length = 32)
    (ufr : Option Nat) (f : RecommendedFess) :
    classification (syntheticUtxo T) = Classification.WitnessPubkeyHash
    ∧ calcVsize none T key = Except.ok 165
    ∧ calcVsize (some [{ amount_sat := (T : Int), address_type := 0, outpoint := none }])
        T key = Except.ok 165
    ∧ ((calculate_fee none T ufr key (Except.ok f)).1).isOk = true := by
  have hamt : (syntheticUtxo T).amount_sat = (T : Int) := by
    show wrapI64 (T : Int) = (T : Int)
    exact wrapI64_eq_self _ (by omega) (by omega)
  have hlens : scriptPubkeyLens (txnOutputs key) = [34, 34] := by
    simp [scriptPubkeyLens, txnOutputs, p2trScript, fundingScript, hk]
  have hsynthpred : inputPrediction (syntheticUtxo T) = P2WPKH_MAX := by
    unfold inputPrediction
    norm_num [syntheticUtxo, Utxo.mkDefault]
  have hv1 : calcVsize none T key = Except.ok 165 := by
    rw [calcVsize_none_eq,
      calcVsize_ok _ _ _ _ (single_coin_predict (syntheticUtxo T) T h0 h1 hamt),
      hsynthpred, hlens]
    rfl
  have hamt2 :
      ({ amount_sat := (T : Int), address_type := 0, outpoint := none } : Utxo).amount_sat
        = (T : Int) := rfl
  have hpred2 :
      inputPrediction { amount_sat := (T : Int), address_type := 0, outpoint := none }
        = P2WPKH_MAX := by
    unfold inputPrediction
    norm_num
  have hv2 : calcVsize
      (some [{ amount_sat := (T : Int), address_type := 0, outpoint := none }]) T key
        = Except.ok 165 := by
    rw [calcVsize_ok _ _ _ _ (single_coin_predict _ T h0 h1 hamt2), hpred2, hlens]
    rfl
  refine ⟨?_, hv1, hv2, ?_⟩
  · unfold classification
    norm_num [syntheticUtxo, Utxo.mkDefault]
  · rcases ufr with _ | r
    · rw [calculate_fee_of_fetch none T key f 165 hv1]
      rfl
    · rw [calculate_fee_of_rate none T r key (Except.ok f) 165 hv1]
      rfl

theorem synthetic_coin_default_witness :
    (0 < (19000 : Nat) ∧ (19000 : Nat) < 2 ^ 63 ∧ key0.length = 32)
    ∧ (classification (syntheticUtxo 19000) = Classification.WitnessPubkeyHash
       ∧ calcVsize none 19000 key0 = Except.ok 165
       ∧ calcVsize
           (some [{ amount_sat := ((19000 : Nat) : Int), address_type := 0, outpoint := none }])
           19000 key0 = Except.ok 165
       ∧ ((calculate_fee none 19000 (some 2) key0 (Except.ok (uniformFees 9))).1).isOk
           = true) :=
  ⟨⟨by decide, by norm_num, by decide⟩,
   synthetic_coin_default 19000 (by decide) (by norm_num) key0 (by decide)
     (some 2) (uniformFees 9)⟩

/-! ### C7 — tier fees are the (wrapping) product of size and rate -/

theorem calculate_fee_of_fetch_err (utxos : Option (List Utxo)) (amount : Nat)
    (key : List Nat) (e : Unit) (vb : Nat)
    (h : calcVsize utxos amount key = Except.ok vb) :
    calculate_fee utxos amount none key (Except.error e)
      = (Except.error FestivusError.ReqwestError, true) := by
  rw [calculate_fee_eq, h]

/-- C7 (counterexample): at rate `2^63` the call succeeds with virtual size
154, yet the reported fastest fee is 0, not `154 * 2^63`: the `u64`
multiplication wraps, so the exact-linearity claim fails. -/
theorem fee_linearity_counterexample :
    calcVsize (some [{ amount_sat := 19000, address_type := 4, outpoint := none }])
        19000 key0 = Except.ok 154
    ∧ (calculate_fee (some [{ amount_sat := 19000, address_type := 4, outpoint := none }])
        19000 (some 9223372036854775808) key0 (Except.error ())).1
      = Except.ok (projectFees 154 (uniformFees 9223372036854775808))
    ∧ (projectFees 154 (uniformFees 9223372036854775808)).fastest_fee.1 = 0
    ∧ (0 : Nat) ≠ 154 * 9223372036854775808 :=
  ⟨rfl, rfl, rfl, by decide⟩

/-- C7 (amended): on every successful call each tier's fee equals the
wrapping 64-bit product of the virtual size and that tier's rate, and it
equals the exact product `virtualSize * ratePerVbyte` whenever that product
fits in a `u64` (is below `2^64`). -/
theorem fee_linearity_mod (utxos : Option (List Utxo)) (amount : Nat)
    (ufr : Option Nat) (key : List Nat) (oracle : Except Unit RecommendedFess)
    (vb : Nat) (P : ProjectedFees)
    (hv : calcVsize utxos amount key = Except.ok vb)
    (hP : (calculate_fee utxos amount ufr key oracle).1 = Except.ok P) :
    (P.fastest_fee.1 = mulU64 vb P.fastest_fee.2
     ∧ P.half_hour_fee.1 = mulU64 vb P.half_hour_fee.2
     ∧ P.hour_fee.1 = mulU64 vb P.hour_fee.2
     ∧ P.economy_fee.1 = mulU64 vb P.economy_fee.2
     ∧ P.minimum_fee.1 = mulU64 vb P.minimum_fee.2)
    ∧ (∀ pr : Nat × Nat,
        pr ∈ [P.fastest_fee, P.half_hour_fee, P.hour_fee,
              P.economy_fee, P.minimum_fee] →
        vb * pr.2 < 18446744073709551616 → pr.1 = vb * pr.2) := by
  have hPeq : ∃ f : RecommendedFess, P = projectFees vb f := by
    rcases ufr with _ | r
    · rcases oracle with e | f
      · rw [calculate_fee_of_fetch_err utxos amount key e vb hv] at hP
        cases hP
      · rw [calculate_fee_of_fetch utxos amount key f vb hv] at hP
        injection hP with hP
        exact ⟨f, hP.symm⟩
    · rw [calculate_fee_of_rate utxos amount r key oracle vb hv] at hP
      injection hP with hP
      exact ⟨uniformFees r, hP.symm⟩
  obtain ⟨f, rfl⟩ := hPeq
  refine ⟨⟨rfl, rfl, rfl, rfl, rfl⟩, ?_⟩
  intro pr hpr hlt
  simp only [projectFees, List.mem_cons, List.not_mem_nil, or_false] at hpr
  rcases hpr with h | h | h | h | h <;> subst h <;> exact Nat.mod_eq_of_lt hlt

theorem fee_linearity_mod_witness :
    ((projectFees 154 (uniformFees 50)).fastest_fee.1
       = mulU64 154 (projectFees 154 (uniformFees 50)).fastest_fee.2
     ∧ (projectFees 154 (uniformFees 50)).half_hour_fee.1
       = mulU64 154 (projectFees 154 (uniformFees 50)).half_hour_fee.2
     ∧ (projectFees 154 (uniformFees 50)).hour_fee.1
       = mulU64 154 (projectFees 154 (uniformFees 50)).hour_fee.2
     ∧ (projectFees 154 (uniformFees 50)).economy_fee.1
       = mulU64 154 (projectFees 154 (uniformFees 50)).economy_fee.2
     ∧ (projectFees 154 (uniformFees 50)).minimum_fee.1
       = mulU64 154 (projectFees 154 (uniformFees 50)).minimum_fee.2)
    ∧ (∀ pr : Nat × Nat,
        pr ∈ [(projectFees 154 (uniformFees 50)).fastest_fee,
              (projectFees 154 (uniformFees 50)).half_hour_fee,
              (projectFees 154 (uniformFees 50)).hour_fee,
              (projectFees 154 (uniformFees 50)).economy_fee,
              (projectFees 154 (uniformFees 50)).minimum_fee] →
        154 * pr.2 < 18446744073709551616 → pr.1 = 154 * pr.2) :=
  fee_linearity_mod
    (some [{ amount_sat := 19000, address_type := 4, outpoint := none }])
    19000 (some 50) key0 (Except.error ()) 154
    (projectFees 154 (uniformFees 50)) rfl rfl
